import Mathlib

/-!
# Verification of gowinbridge against its specification

Shallow embedding of the gowinbridge repository (Go) in Lean 4.

* `pkg/bridge/env.go` — WSLENV flag inference, manifest building, environment
  composition.  Go maps are modelled as association lists, `os.Environ()` as an
  explicit `environ` parameter.
* `internal/wsl/path.go` — table-driven path translation.  Path strings are
  modelled as `List Char`; the process-wide `sync.Map` cache is explicit state.
* `pkg/bridge/exec.go` — buffered output capture and exit-status handling.
* `pkg/workerpool` (pool.go) — a small-step transition system over pool states.

Several Go string primitives (`strings.Split` on a single-character separator,
`strings.Contains`, `strings.HasPrefix`, `strings.TrimSpace`,
`strings.ReplaceAll` between single characters, `strings.ToUpper`) are given
directly as executable `List Char` functions so that concrete runs reduce in
the kernel.
-/

set_option maxHeartbeats 1000000

deriving instance DecidableEq for Except

/-! ## Go string primitives -/

/-- `strings.Split(s, sep)` for a single-character separator. -/
def splitOnChar (sep : Char) : List Char → List (List Char)
  | [] => [[]]
  | c :: cs =>
    match splitOnChar sep cs with
    | [] => [[]]
    | s :: rest => if c = sep then [] :: s :: rest else (c :: s) :: rest

/-- `strings.Join(segs, string(sep))`. -/
def joinSep (sep : Char) : List (List Char) → List Char
  | [] => []
  | [s] => s
  | s :: t :: r => s ++ sep :: joinSep sep (t :: r)

/-- `strings.TrimSpace`. -/
def trimSpace (l : List Char) : List Char :=
  ((l.dropWhile Char.isWhitespace).reverse.dropWhile Char.isWhitespace).reverse

/-- `strings.ToUpper` (ASCII, as used for environment variable keys). -/
def strToUpper (s : String) : String := String.mk (s.data.map Char.toUpper)

/-- Lexicographic (byte) order on strings, the order used by `sort.Strings`. -/
def lexLe : List Char → List Char → Bool
  | [], _ => true
  | _ :: _, [] => false
  | a :: as, b :: bs => if a < b then true else if b < a then false else lexLe as bs

/-- The `sort.Strings` order as a relation on `String`. -/
def strLe (a b : String) : Prop := lexLe a.data b.data = true

instance : DecidableRel strLe := fun a b =>
  inferInstanceAs (Decidable (lexLe a.data b.data = true))

/-! ## pkg/bridge/env.go -/

/-- WSLENV flag constant `/p` (translate a single path). -/
def WSLEnvFlagTranslatePath : String := "/p"

/-- WSLENV flag constant `/l` (translate a colon-delimited list of paths). -/
def WSLEnvFlagTranslatePathList : String := "/l"

/-- WSLENV flag constant `/u` (value available only when invoking Win32 from WSL). -/
def WSLEnvFlagUnixToWin : String := "/u"

/-- WSLENV flag constant `/w` (value available only when invoking WSL from Win32). -/
def WSLEnvFlagWinToUnix : String := "/w"

/-- The well-known path-like environment variable names of env.go
(`pathLikeKeys`); the Go `map[string]bool` is modelled as the list of the keys
that are mapped to `true`. -/
def pathLikeKeys : List String :=
  ["PATH", "HOME", "GOPATH", "GOROOT", "TMPDIR", "TEMP", "TMP",
   "USERPROFILE", "APPDATA", "LOCALAPPDATA"]

/-- Loop body of `inferWSLEnvFlag`: a `":"`-separated segment is counted as a
path when, after `strings.TrimSpace`, it starts with `"/"` or `"./"`. -/
def segIsPath (seg : List Char) : Bool :=
  let s := trimSpace seg
  ['/'].isPrefixOf s || ['.', '/'].isPrefixOf s

/-- `inferWSLEnvFlag` of env.go: selects the WSLENV flag from the key name and
the value content. -/
def inferWSLEnvFlag (key value : String) : String :=
  let v := value.data
  let listFlag : Bool :=
    if v.contains ':' then
      let segments := splitOnChar ':' v
      let pathCount := segments.foldl (fun n seg => if segIsPath seg then n + 1 else n) 0
      decide (0 < pathCount) && decide (segments.length / 2 ≤ pathCount)
    else false
  if listFlag then WSLEnvFlagTranslatePathList
  else if ['/'].isPrefixOf v || ['.', '/'].isPrefixOf v || ['.', '.', '/'].isPrefixOf v then
    WSLEnvFlagTranslatePath
  else if pathLikeKeys.contains (strToUpper key) then WSLEnvFlagTranslatePath
  else WSLEnvFlagUnixToWin

/-- `BuildWSLENV` of env.go.  The Go `map[string]string` is modelled as an
association list; `sort.Strings` is modelled by insertion sort under the
lexicographic order, and the map read `vars[k]` by the first association-list
binding. -/
def BuildWSLENV (vars : List (String × String)) : String :=
  if vars.length = 0 then ""
  else
    let keys := (vars.map Prod.fst).insertionSort strLe
    let parts := keys.map (fun k => k ++ inferWSLEnvFlag k ((vars.lookup k).getD ""))
    String.intercalate ":" parts

/-- `CommandConfig` of config.go (I/O stream fields omitted; `Timeout` in
nanoseconds as a `Nat`). -/
structure CommandConfig where
  Command : String := ""
  Args : List String := []
  Env : List (String × String) := []
  EnvTunneling : Bool := false
  WorkDir : String := ""
  Timeout : Nat := 0
  ConvertPaths : Bool := false
  Encoding : String := ""
  Interactive : Bool := false
deriving Repr, DecidableEq

/-- `PrepareEnv` of env.go.  `os.Environ()` is the explicit `environ`
parameter; the `nil` slice that means "inherit the parent environment" is
`none`.  `strings.HasPrefix(e, "WSLENV=")` is a `List Char` check and
`strings.TrimPrefix` drops the seven characters of `"WSLENV="`. -/
def PrepareEnv (environ : List String) (config : CommandConfig) : Option (List String) :=
  if config.Env = [] ∧ config.EnvTunneling = false then none
  else
    let env := environ ++ config.Env.map (fun kv => kv.1 ++ "=" ++ kv.2)
    if config.EnvTunneling = true ∧ config.Env ≠ [] then
      let wslenv := BuildWSLENV config.Env
      match env.findIdx? (fun e => "WSLENV=".data.isPrefixOf e.data) with
      | some i =>
          let existing := String.mk (((env.get? i).getD "").data.drop 7)
          let newVal := if existing = "" then wslenv else existing ++ ":" ++ wslenv
          some (env.set i ("WSLENV=" ++ newVal))
      | none => some (env ++ ["WSLENV=" ++ wslenv])
    else some env

/-! ## internal/wsl/path.go -/

/-- One step of the segment form of Go `path/filepath.Clean` (Unix rules):
empty and `"."` segments are dropped; `".."` pops the previous segment, except
that a rooted path cannot pop past the root and an unrooted path keeps leading
`".."` segments. -/
def cleanStep (rooted : Bool) (acc : List (List Char)) (seg : List Char) : List (List Char) :=
  if seg = [] ∨ seg = ['.'] then acc
  else if seg = ['.', '.'] then
    if rooted then acc.dropLast
    else
      match acc.getLast? with
      | some last => if last = ['.', '.'] then acc ++ [seg] else acc.dropLast
      | none => acc ++ [seg]
  else acc ++ [seg]

/-- The cleaned segment list of a path (fold of `cleanStep`). -/
def cleanSegs (rooted : Bool) (segs : List (List Char)) : List (List Char) :=
  segs.foldl (cleanStep rooted) []

/-- Go `path/filepath.Clean` on Unix, in segment form: split on `'/'`, process
the segments with `cleanStep`, and reassemble (an empty result is `"/"` for a
rooted path and `"."` otherwise). -/
def goClean (p : List Char) : List Char :=
  if p = [] then ['.']
  else
    let rooted : Bool := decide (p.head? = some '/')
    let segs := cleanSegs rooted (splitOnChar '/' p)
    if rooted then '/' :: joinSep '/' segs
    else if segs = [] then ['.'] else joinSep '/' segs

/-- `mountEntry` of path.go. -/
structure mountEntry where
  DriveLetter : List Char
  MountPoint : List Char
deriving Repr, DecidableEq

/-- The mount-table loop of `toWindowsPathInternal`: first entry whose mount
point matches exactly or as a `"/"`-terminated prefix wins.
`strings.ReplaceAll(rest, "/", "\\")` is a character map. -/
def mountMatch (linuxPath : List Char) : List mountEntry → Option (List Char)
  | [] => none
  | m :: rest =>
    if linuxPath = m.MountPoint then some (m.DriveLetter ++ [':', '\\'])
    else if (m.MountPoint ++ ['/']).isPrefixOf linuxPath then
      some (m.DriveLetter ++ [':', '\\'] ++
        (linuxPath.drop (m.MountPoint.length + 1)).map (fun c => if c = '/' then '\\' else c))
    else mountMatch linuxPath rest

/-- `toWindowsPathInternal` of path.go.  The lazily parsed mount table and the
cached distro name are explicit parameters. -/
def toWindowsPathInternal (mounts : List mountEntry) (distro : List Char)
    (linuxPath : List Char) : List Char :=
  match mountMatch linuxPath mounts with
  | some w => w
  | none =>
      "\\\\wsl.localhost\\".toList ++ distro ++
        linuxPath.map (fun c => if c = '/' then '\\' else c)

/-- `cacheKey` of path.go. -/
def cacheKey (direction : List Char) (path : List Char) : List Char :=
  direction ++ ':' :: path

/-- The process-wide `sync.Map` path cache as explicit state. -/
abbrev PathCache := List (List Char × List Char)

/-- `pathCache.Load`. -/
def cacheLoad (cache : PathCache) (k : List Char) : Option (List Char) :=
  (cache.find? (fun e => e.1 == k)).map (fun e => e.2)

/-- `ToWindowsPath` of path.go, with the cache threaded explicitly
(`pathCache.Store` prepends, and `cacheLoad` returns the most recent store). -/
def ToWindowsPath (mounts : List mountEntry) (distro : List Char) (cache : PathCache)
    (linuxPath : List Char) : Except (List Char) (List Char) × PathCache :=
  if linuxPath = [] then (.error "empty path provided".toList, cache)
  else
    match cacheLoad cache (cacheKey ['w'] linuxPath) with
    | some v => (.ok v, cache)
    | none =>
        let cleaned := goClean linuxPath
        let result := toWindowsPathInternal mounts distro cleaned
        (.ok result, (cacheKey ['w'] linuxPath, result) :: cache)

/-- The `\\wsl.localhost\` UNC marker. -/
def uncLocalhostPre : List Char := "\\\\wsl.localhost\\".toList

/-- The `\\wsl$\` UNC marker. -/
def uncDollarPre : List Char := "\\\\wsl$\\".toList

/-- `toLinuxPathInternal` of path.go.  In the drive-letter branch the Go guard
`len(windowsPath) > 2` is subsumed: dropping two characters of a length-two
path already yields the empty remainder. -/
def toLinuxPathInternal (windowsPath : List Char) : Except (List Char) (List Char) :=
  if uncLocalhostPre.isPrefixOf windowsPath ∨ uncDollarPre.isPrefixOf windowsPath then
    let rest :=
      if uncLocalhostPre.isPrefixOf windowsPath then windowsPath.drop uncLocalhostPre.length
      else windowsPath.drop uncDollarPre.length
    match rest.findIdx? (fun c => c = '\\') with
    | some idx => .ok (goClean ((rest.drop idx).map (fun c => if c = '\\' then '/' else c)))
    | none => .ok ['/']
  else if 2 ≤ windowsPath.length ∧ windowsPath.get? 1 = some ':' ∧
      ((windowsPath.get? 0).getD ' ').isAlpha = true then
    let driveLetter := ((windowsPath.get? 0).getD ' ').toLower
    let rest0 := windowsPath.drop 2
    let rest1 := if ['\\'].isPrefixOf rest0 then rest0.drop 1 else rest0
    let rest := rest1.map (fun c => if c = '\\' then '/' else c)
    if rest = [] then .ok ("/mnt/".toList ++ [driveLetter])
    else .ok (goClean ("/mnt/".toList ++ driveLetter :: '/' :: rest))
  else .error ("unrecognized Windows path format: ".toList ++ windowsPath)

/-- `ToLinuxPath` of path.go, with the cache threaded explicitly. -/
def ToLinuxPath (cache : PathCache) (windowsPath : List Char) :
    Except (List Char) (List Char) × PathCache :=
  if windowsPath = [] then (.error "empty path provided".toList, cache)
  else
    match cacheLoad cache (cacheKey ['u'] windowsPath) with
    | some v => (.ok v, cache)
    | none =>
        match toLinuxPathInternal windowsPath with
        | .error e => (.error e, cache)
        | .ok result => (.ok result, (cacheKey ['u'] windowsPath, result) :: cache)

/-! ## pkg/bridge/exec.go — buffered capture and exit-status handling -/

/-- One `bufio.ScanLines` token is stripped of a trailing carriage return. -/
def dropCR (l : List Char) : List Char :=
  if l.getLast? = some '\r' then l.dropLast else l

/-- The token sequence a `bufio.Scanner` (with the default `ScanLines` split)
produces on a whole stream: split on `'\n'`, drop the final empty piece (no
token is emitted after a final newline), strip a trailing `'\r'` from each
line. -/
def scanLines (raw : List Char) : List (List Char) :=
  let parts := splitOnChar '\n' raw
  let parts := if parts.getLast? = some [] then parts.dropLast else parts
  parts.map dropCR

/-- `strings.TrimRight(s, "\n")`: removes all trailing newline characters. -/
def trimRightNewlines (l : List Char) : List Char :=
  (l.reverse.dropWhile (fun c => c = '\n')).reverse

/-- The buffered capture of one output stream in `executeBuffered`: the scanner
goroutine appends every scanned line followed by `"\n"` to the builder, and at
completion the builder content is `strings.TrimRight(·, "\n")`. -/
def captureBuffered (raw : List Char) : List Char :=
  trimRightNewlines ((scanLines raw).foldl (fun acc line => acc ++ line ++ ['\n']) [])

/-- `Output` of config.go (the wall-clock duration is omitted). -/
structure Output where
  Stdout : List Char := []
  Stderr : List Char := []
  ExitCode : Int := 0
deriving Repr, DecidableEq

/-- What `cmd.Wait()` reports: a nil error, an `*exec.ExitError` carrying
`ExitCode()`, or any other error. -/
inductive WaitResult where
  | success
  | exitError (code : Int)
  | other (msg : List Char)
deriving Repr, DecidableEq

/-- Modelled from Go `os/exec` semantics (Go ≥ 1.20): when the context given to
`exec.CommandContext` becomes done (configured timeout expired or the caller's
cancellation fired), the child is killed with SIGKILL and `cmd.Wait` reports an
`*exec.ExitError` whose `ExitCode()` is `-1`; the context's own error is
reported instead only when the process manages to exit with a success
status. -/
def ctxKillWaitResult : WaitResult := .exitError (-1)

/-- The tail of `executeBuffered` (exec.go) after the streaming goroutines have
drained the pipes and `cmd.Wait()` has returned: build the `Output` from the
two captures and normalize the wait error. -/
def executeBufferedResult (stdoutRaw stderrRaw : List Char) (waitErr : WaitResult) :
    Output × Option (List Char) :=
  let output : Output :=
    { Stdout := captureBuffered stdoutRaw, Stderr := captureBuffered stderrRaw }
  match waitErr with
  | .success => (output, none)
  | .exitError code => ({ output with ExitCode := code }, none)
  | .other msg => (output, some ("command execution failed: ".toList ++ msg))

/-! ## pkg/workerpool/pool.go — small-step transition system

The pool is modelled as a transition system over an abstract job type `α`
(a job is a `bridge.CommandConfig` value).  The bounded channels, the worker
goroutines and the `context` are abstracted into: a FIFO `queue` (the `jobs`
channel), the bag `inFlight` of jobs currently inside `p.executor`, the list
`emitted` of results sent on the `results` channel, and flags for
`close(p.jobs)` (`Shutdown`), `p.cancel()` (`Cancel`) and `close(p.results)`.
The ghost fields `submitted` and `execCount` record every `Submit` and every
invocation of the executor. -/

/-- The error component of a `workerpool.Result`. -/
inductive PoolErr where
  /-- `p.ctx.Err()` — the pool-wide cancellation error. -/
  | cancelled
  /-- any other executor error. -/
  | execFailed
deriving Repr, DecidableEq

/-- One element of the `results` channel: the original config plus the error
component (`none` is a success). -/
structure PoolResult (α : Type) where
  config : α
  err : Option PoolErr
deriving Repr, DecidableEq

/-- The abstract state of a `workerpool.Pool`. -/
structure PoolState (α : Type) where
  queue : List α := []
  inFlight : List α := []
  emitted : List (PoolResult α) := []
  jobsClosed : Bool := false
  cancelled : Bool := false
  resultsClosed : Bool := false
  submitted : List α := []
  execCount : Nat := 0
deriving Repr, DecidableEq

/-- The state of a freshly constructed pool. -/
def initPool (α : Type) : PoolState α := {}

/-- The atomic transitions of the pool, read off pool.go:
`Submit` enqueues while the jobs channel is open; `Shutdown` closes it;
`Cancel` cancels the pool context; a worker that receives a job runs the
`select` in `worker`: when the context is done it emits a cancellation result
without invoking the executor, otherwise it invokes the executor
(`pickRun`/`finishRun`, with an arbitrary executor outcome `e`); the results
channel closes once the jobs channel is closed and drained and no worker is
mid-job (`p.wg.Wait()` in `start`). -/
inductive PoolStep (α : Type) : PoolState α → PoolState α → Prop
  | submit (s : PoolState α) (j : α) (h : s.jobsClosed = false) :
      PoolStep α s { s with queue := s.queue ++ [j], submitted := s.submitted ++ [j] }
  | shutdown (s : PoolState α) :
      PoolStep α s { s with jobsClosed := true }
  | cancel (s : PoolState α) :
      PoolStep α s { s with cancelled := true }
  | pickCancelled (s : PoolState α) (j : α) (rest : List α)
      (hq : s.queue = j :: rest) (hc : s.cancelled = true) :
      PoolStep α s { s with queue := rest, emitted := s.emitted ++ [⟨j, some .cancelled⟩] }
  | pickRun (s : PoolState α) (j : α) (rest : List α)
      (hq : s.queue = j :: rest) (hc : s.cancelled = false) :
      PoolStep α s
        { s with queue := rest, inFlight := s.inFlight ++ [j], execCount := s.execCount + 1 }
  | finishRun (s : PoolState α) (j : α) (l₁ l₂ : List α) (e : Option PoolErr)
      (hf : s.inFlight = l₁ ++ j :: l₂) :
      PoolStep α s { s with inFlight := l₁ ++ l₂, emitted := s.emitted ++ [⟨j, e⟩] }
  | closeResults (s : PoolState α) (h1 : s.jobsClosed = true) (h2 : s.queue = [])
      (h3 : s.inFlight = []) :
      PoolStep α s { s with resultsClosed := true }

/-- States reachable from a freshly constructed pool. -/
inductive PoolReach (α : Type) : PoolState α → Prop
  | init : PoolReach α (initPool α)
  | step {s s' : PoolState α} : PoolReach α s → PoolStep α s s' → PoolReach α s'

/-! ## General helper lemmas -/

theorem string_data_inj {a b : String} (h : a.data = b.data) : a = b := by
  cases a
  cases b
  exact congrArg String.mk h

theorem string_append_assoc (a b c : String) : a ++ b ++ c = a ++ (b ++ c) :=
  string_data_inj (by simp [String.data_append])

theorem foldl_count_segIsPath (l : List (List Char)) (n : Nat) :
    l.foldl (fun n seg => if segIsPath seg then n + 1 else n) n = n + l.countP segIsPath := by
  induction l generalizing n with
  | nil => simp
  | cons s t ih =>
    by_cases h : segIsPath s
    · simp [h, ih, List.countP_cons]
      omega
    · simp [h, ih, List.countP_cons]

theorem trimRightNewlines_append (a x : List Char) :
    trimRightNewlines (a ++ x) =
      if trimRightNewlines x = [] then trimRightNewlines a else a ++ trimRightNewlines x := by
  unfold trimRightNewlines
  rw [List.reverse_append, List.dropWhile_append]
  by_cases h : (x.reverse.dropWhile fun c => c = '\n') = []
  · simp [h]
  · simp [h, List.isEmpty_iff, List.reverse_append]

theorem foldl_append_lines (ls : List (List Char)) (a : List Char) :
    ls.foldl (fun acc line => acc ++ line ++ ['\n']) a
      = a ++ (ls.map (fun l => l ++ ['\n'])).flatten := by
  induction ls generalizing a with
  | nil => simp
  | cons s t ih =>
    simp only [List.foldl_cons, List.map_cons, List.flatten_cons]
    rw [ih]
    simp [List.append_assoc]

theorem trim_join_eq_trim_joinSep (ls : List (List Char)) :
    trimRightNewlines ((ls.map (fun l => l ++ ['\n'])).flatten)
      = trimRightNewlines (joinSep '\n' ls) := by
  induction ls with
  | nil => rfl
  | cons s t ih =>
    cases t with
    | nil =>
      have h1 : trimRightNewlines ['\n'] = [] := rfl
      simp only [List.map_cons, List.map_nil, List.flatten_cons, List.flatten_nil,
        List.append_nil, joinSep]
      rw [trimRightNewlines_append, h1, if_pos rfl]
    | cons s2 t2 =>
      simp only [List.map_cons, List.flatten_cons] at ih ⊢
      have hR : joinSep '\n' (s :: s2 :: t2) = (s ++ ['\n']) ++ joinSep '\n' (s2 :: t2) := by
        show s ++ '\n' :: joinSep '\n' (s2 :: t2) = _
        rw [List.append_assoc]
        rfl
      rw [hR, trimRightNewlines_append (s ++ ['\n']), trimRightNewlines_append (s ++ ['\n']), ih]

theorem lexLe_total (a b : List Char) : lexLe a b = true ∨ lexLe b a = true := by
  induction a generalizing b with
  | nil => left; rfl
  | cons x xs ih =>
    cases b with
    | nil => right; rfl
    | cons y ys =>
      unfold lexLe
      rcases lt_trichotomy x y with h | h | h
      · left
        simp [h]
      · subst h
        simpa [lt_irrefl] using ih ys
      · right
        simp [h]

theorem lexLe_trans (a b c : List Char) (h1 : lexLe a b = true) (h2 : lexLe b c = true) :
    lexLe a c = true := by
  induction a generalizing b c with
  | nil => rfl
  | cons x xs ih =>
    cases b with
    | nil => simp [lexLe] at h1
    | cons y ys =>
      cases c with
      | nil => simp [lexLe] at h2
      | cons z zs =>
        simp only [lexLe] at h1 h2 ⊢
        rcases lt_trichotomy x y with hxy | hxy | hxy
        · rcases lt_trichotomy y z with hyz | hyz | hyz
          · simp [lt_trans hxy hyz]
          · subst hyz
            simp [hxy]
          · simp [hyz, asymm hyz] at h2
        · subst hxy
          rcases lt_trichotomy x z with hxz | hxz | hxz
          · simp [hxz]
          · subst hxz
            simp only [lt_irrefl, if_false] at h1 h2 ⊢
            exact ih ys zs h1 h2
          · simp [hxz, asymm hxz] at h2
        · simp [hxy, asymm hxy] at h1

theorem lexLe_antisymm (a b : List Char) (h1 : lexLe a b = true) (h2 : lexLe b a = true) :
    a = b := by
  induction a generalizing b with
  | nil =>
    cases b with
    | nil => rfl
    | cons y ys => simp [lexLe] at h2
  | cons x xs ih =>
    cases b with
    | nil => simp [lexLe] at h1
    | cons y ys =>
      simp only [lexLe] at h1 h2
      rcases lt_trichotomy x y with hxy | hxy | hxy
      · simp [hxy, asymm hxy] at h2
      · subst hxy
        simp only [lt_irrefl, if_false] at h1 h2
        rw [ih ys h1 h2]
      · simp [hxy, asymm hxy] at h1

instance : IsTotal String strLe := ⟨fun a b => lexLe_total a.data b.data⟩

instance : IsTrans String strLe := ⟨fun a b c => lexLe_trans a.data b.data c.data⟩

instance : IsAntisymm String strLe :=
  ⟨fun a b h1 h2 => string_data_inj (lexLe_antisymm a.data b.data h1 h2)⟩

theorem lookup_eq_of_perm {β : Type} {l₁ l₂ : List (String × β)} (hp : l₁.Perm l₂) :
    (l₁.map Prod.fst).Nodup → ∀ k, List.lookup k l₁ = List.lookup k l₂ := by
  induction hp with
  | nil => intro _ _; rfl
  | cons x p ih =>
    intro hn k
    simp only [List.map_cons, List.nodup_cons] at hn
    simp only [List.lookup]
    cases hkx : k == x.1 with
    | true => rfl
    | false => exact ih hn.2 k
  | swap x y l =>
    intro hn k
    simp only [List.map_cons, List.nodup_cons, List.mem_cons] at hn
    have hxy : ¬(y.1 = x.1) := fun h => hn.1 (Or.inl h)
    simp only [List.lookup]
    cases hky : k == y.1 with
    | true =>
      have : k = y.1 := by simpa using hky
      subst this
      have : (y.1 == x.1) = false := by simpa using hxy
      simp [this, hky]
    | false => cases hkx : k == x.1 <;> simp [hkx, hky]
  | trans p1 p2 ih1 ih2 =>
    intro hn k
    rw [ih1 hn k, ih2 ((p1.map Prod.fst).nodup hn) k]

/-! ## Claim C1 -/

/-- **C1** (counterexample): when the child process is terminated because the
timeout or the caller's cancellation fired, `cmd.Wait` reports the kill as an
`*exec.ExitError` with exit code `-1`, and `Execute`/`executeBuffered` returns
a `nil` error — not a distinguishable cancellation/timeout error as the claim
states — while the captured output is kept. -/
theorem exec_ctxkill_nil_error_counterexample :
    (executeBufferedResult "out".toList "err".toList ctxKillWaitResult).2 = none ∧
    (executeBufferedResult "out".toList "err".toList ctxKillWaitResult).1.ExitCode = -1 ∧
    (executeBufferedResult "out".toList "err".toList ctxKillWaitResult).1.Stdout
      = "out".toList := by
  decide

/-- **C1** (amended): for every invocation whose child is terminated by the
configured timeout or the caller's cancellation scope, `Execute` in buffered
mode returns a `nil` error together with `ExitCode = -1`, and the result still
carries whatever stdout/stderr was captured before termination; the
termination is observable only through the `-1` exit code, not through an
error value. -/
theorem exec_ctxkill_keeps_output (stdoutRaw stderrRaw : List Char) :
    executeBufferedResult stdoutRaw stderrRaw ctxKillWaitResult =
      ({ Stdout := captureBuffered stdoutRaw, Stderr := captureBuffered stderrRaw,
         ExitCode := -1 }, none) := rfl

/-! ## Claim C3 -/

/-- **C3** (counterexample): `inferWSLEnvFlag` assigns the path-list flag to
the value `"a:/b"`, although only one of its two `":"`-separated segments is
path-shaped — not a strict majority, so the claim's "exactly when … a majority
(strictly more than half)" fails on this input. -/
theorem inferWSLEnvFlag_majority_counterexample :
    inferWSLEnvFlag "K" "a:/b" = WSLEnvFlagTranslatePathList ∧
    2 * (splitOnChar ':' "a:/b".data).countP segIsPath
      ≤ (splitOnChar ':' "a:/b".data).length := by
  decide

/-- Claim C3 as amended: the list-of-paths flag is chosen exactly when the
value contains the separator, at least one trimmed segment is path-shaped, and
the path-shaped segments number at least half (integer division) of all
segments; otherwise a path-shaped value gets the single-path flag; otherwise a
well-known path-like key gets the single-path flag; otherwise the pass-through
flag. -/
def amendedFlagChoice (key value : String) : String :=
  let segments := splitOnChar ':' value.data
  if value.data.contains ':' ∧ 0 < segments.countP segIsPath ∧
      segments.length / 2 ≤ segments.countP segIsPath then
    WSLEnvFlagTranslatePathList
  else if ['/'].isPrefixOf value.data ∨ ['.', '/'].isPrefixOf value.data ∨
      ['.', '.', '/'].isPrefixOf value.data then
    WSLEnvFlagTranslatePath
  else if pathLikeKeys.contains (strToUpper key) then WSLEnvFlagTranslatePath
  else WSLEnvFlagUnixToWin

/-- **C3** (amended): the flag chooser of env.go coincides everywhere with the
amended declarative description `amendedFlagChoice` (at-least-half majority
with at least one path segment; then path-shaped value; then well-known key;
then pass-through). -/
theorem inferWSLEnvFlag_eq_amended (key value : String) :
    inferWSLEnvFlag key value = amendedFlagChoice key value := by
  unfold inferWSLEnvFlag amendedFlagChoice
  by_cases hc : ':' ∈ value.data
  · by_cases h1 : 0 < (splitOnChar ':' value.data).countP segIsPath
    · by_cases h2 : (splitOnChar ':' value.data).length / 2 ≤
          (splitOnChar ':' value.data).countP segIsPath
      · simp [hc, h1, h2, foldl_count_segIsPath]
      · simp [hc, h1, h2, foldl_count_segIsPath, or_assoc]
    · simp [hc, h1, foldl_count_segIsPath, or_assoc]
  · simp [hc, or_assoc]

/-! ## Claim C5 -/

/-- The capture as claim C5 states it: the scanned lines joined with newline
separators with exactly one trailing newline trimmed. -/
def captureClaimedC5 (raw : List Char) : List Char :=
  let joined := (scanLines raw).foldl (fun acc line => acc ++ line ++ ['\n']) []
  if joined.getLast? = some '\n' then joined.dropLast else joined

/-- **C5** (counterexample): for the child output `"a\n\n\n"` the buffered
capture is `"a"` — `strings.TrimRight` removes *all* trailing newlines — while
the claim's "exactly one trailing newline trimmed" would give `"a\n\n"`;
trailing empty lines are not preserved. -/
theorem captureBuffered_counterexample :
    captureBuffered "a\n\n\n".toList = "a".toList ∧
    captureClaimedC5 "a\n\n\n".toList = "a\n\n".toList := by
  decide

/-- **C5** (amended): in buffered capture mode the captured stream equals the
scanned lines joined with newline separators with *all* trailing newlines
trimmed at completion (equivalently, trailing empty lines are dropped). -/
theorem captureBuffered_joins_and_trims_all (raw : List Char) :
    captureBuffered raw = trimRightNewlines (joinSep '\n' (scanLines raw)) := by
  unfold captureBuffered
  rw [foldl_append_lines, List.nil_append, trim_join_eq_trim_joinSep]

/-! ## Claim C6 -/

/-- **C6**: when tunneling is requested, the overlay is non-empty, and the
inherited environment already holds a `WSLENV` entry with a non-empty value at
(first) index `i`, `PrepareEnv` rewrites that entry to the old value followed
by `":"` and the newly generated tokens, leaves every other inherited entry
unchanged, and appends exactly the overlay entries. -/
theorem PrepareEnv_appends_existing (environ : List String) (config : CommandConfig)
    (i : Nat) (ex : String)
    (ht : config.EnvTunneling = true) (hne : config.Env ≠ [])
    (hfind : environ.findIdx? (fun e => "WSLENV=".data.isPrefixOf e.data) = some i)
    (hget : environ.get? i = some ("WSLENV=" ++ ex)) (hexne : ex ≠ "") :
    ∃ l, PrepareEnv environ config = some l ∧
      l.get? i = some ("WSLENV=" ++ ex ++ ":" ++ BuildWSLENV config.Env) ∧
      (∀ j, j < environ.length → j ≠ i → l.get? j = environ.get? j) ∧
      l.length = environ.length + config.Env.length := by
  have hilt : i < environ.length := (List.get?_eq_some.mp hget).fst
  have hc1 : ¬(config.Env = [] ∧ config.EnvTunneling = false) := fun h => hne h.1
  have hienv : (environ ++ config.Env.map (fun kv => kv.1 ++ "=" ++ kv.2)).findIdx?
      (fun e => "WSLENV=".data.isPrefixOf e.data) = some i := by
    rw [List.findIdx?_append, hfind]
    rfl
  have hgetenv : (environ ++ config.Env.map (fun kv => kv.1 ++ "=" ++ kv.2)).get? i
      = some ("WSLENV=" ++ ex) := by
    rw [List.get?_append hilt, hget]
  have hexist : String.mk (("WSLENV=" ++ ex).data.drop 7) = ex := by
    rw [String.data_append, show (7 : Nat) = "WSLENV=".data.length from rfl, List.drop_left]
  refine ⟨(environ ++ config.Env.map (fun kv => kv.1 ++ "=" ++ kv.2)).set i
      ("WSLENV=" ++ (ex ++ ":" ++ BuildWSLENV config.Env)), ?_, ?_, ?_, ?_⟩
  · simp only [PrepareEnv, hc1, if_false, ht, hne, ne_eq, not_false_iff, and_true, if_true,
      hienv, hgetenv, Option.getD_some, hexist, hexne, ite_false]
    simp [hexist, hexne]
  · rw [List.get?_set_eq, hgetenv]
    simp [string_append_assoc]
  · intro j hj hji
    rw [List.get?_set_ne _ _ (Ne.symm hji), List.get?_append hj]
  · simp

/-- **C6** (witness): the theorem at a concrete environment holding
`WSLENV=OLD/u` and one tunneled variable. -/
theorem PrepareEnv_appends_existing_witness :
    ∃ l, PrepareEnv ["A=1", "WSLENV=OLD/u"]
        { Env := [("B", "x")], EnvTunneling := true } = some l ∧
      l.get? 1 = some ("WSLENV=" ++ "OLD/u" ++ ":" ++ BuildWSLENV [("B", "x")]) ∧
      (∀ j, j < (["A=1", "WSLENV=OLD/u"] : List String).length → j ≠ 1 →
        l.get? j = (["A=1", "WSLENV=OLD/u"] : List String).get? j) ∧
      l.length = (["A=1", "WSLENV=OLD/u"] : List String).length + ([("B", "x")] : List (String × String)).length :=
  PrepareEnv_appends_existing ["A=1", "WSLENV=OLD/u"]
    { Env := [("B", "x")], EnvTunneling := true } 1 "OLD/u"
    rfl (by decide) (by decide) (by decide) (by decide)

/-! ## Claim C8 -/

/-- **C8**: `BuildWSLENV` is deterministic — association lists holding the same
key/value pairs (permutations with duplicate-free keys, which is what a Go map
provides) produce the identical output string — and the output's tokens follow
the lexicographically sorted key order. -/
theorem BuildWSLENV_deterministic (l₁ l₂ : List (String × String))
    (hp : l₁.Perm l₂) (hn : (l₁.map Prod.fst).Nodup) :
    BuildWSLENV l₁ = BuildWSLENV l₂ ∧
    ∃ ks, ks.Perm (l₁.map Prod.fst) ∧ List.Sorted strLe ks ∧
      BuildWSLENV l₁ = String.intercalate ":"
        (ks.map (fun k => k ++ inferWSLEnvFlag k ((l₁.lookup k).getD ""))) := by
  have hkeys : (l₁.map Prod.fst).insertionSort strLe = (l₂.map Prod.fst).insertionSort strLe :=
    List.eq_of_perm_of_sorted
      ((List.perm_insertionSort strLe _).trans ((hp.map Prod.fst).trans
        (List.perm_insertionSort strLe _).symm))
      (List.sorted_insertionSort strLe _) (List.sorted_insertionSort strLe _)
  have hfun : (fun k => k ++ inferWSLEnvFlag k ((l₁.lookup k).getD ""))
      = (fun k => k ++ inferWSLEnvFlag k ((l₂.lookup k).getD "")) :=
    funext fun k => by rw [lookup_eq_of_perm hp hn k]
  constructor
  · unfold BuildWSLENV
    rcases Decidable.em (l₁.length = 0) with h0 | h0
    · rw [if_pos h0, if_pos (hp.length_eq ▸ h0)]
    · rw [if_neg h0, if_neg (hp.length_eq ▸ h0), hkeys, hfun]
  · refine ⟨(l₁.map Prod.fst).insertionSort strLe, List.perm_insertionSort strLe _,
      List.sorted_insertionSort strLe _, ?_⟩
    unfold BuildWSLENV
    rcases Decidable.em (l₁.length = 0) with h0 | h0
    · rw [if_pos h0]
      have : l₁ = [] := List.length_eq_zero.mp h0
      subst this
      rfl
    · rw [if_neg h0]

/-- **C8** (witness): the theorem at two orderings of the same two-entry
map. -/
theorem BuildWSLENV_deterministic_witness :
    BuildWSLENV [("B", "1"), ("A", "/x")] = BuildWSLENV [("A", "/x"), ("B", "1")] ∧
    ∃ ks, ks.Perm (([("B", "1"), ("A", "/x")] : List (String × String)).map Prod.fst) ∧
      List.Sorted strLe ks ∧
      BuildWSLENV [("B", "1"), ("A", "/x")] = String.intercalate ":"
        (ks.map (fun k => k ++ inferWSLEnvFlag k
          ((([("B", "1"), ("A", "/x")] : List (String × String)).lookup k).getD ""))) :=
  BuildWSLENV_deterministic _ _ (by decide) (by decide)

/-! ## Claim C9 -/

/-- **C9**: both translation directions fail on the empty string with the
empty-path error, return no translated path, and leave the path cache exactly
as it was. -/
theorem translate_empty_path_error (mounts : List mountEntry) (distro : List Char)
    (cache : PathCache) :
    ToWindowsPath mounts distro cache [] = (.error "empty path provided".toList, cache) ∧
    ToLinuxPath cache [] = (.error "empty path provided".toList, cache) :=
  ⟨rfl, rfl⟩

/-! ## Claim C10 -/

/-- **C10**: with `EnvTunneling` set but an empty overlay, `PrepareEnv` returns
the inherited environment snapshot itself (non-nil, no WSLENV entry added),
and the nil inherit-sentinel is returned exactly when the overlay is empty and
tunneling is disabled. -/
theorem PrepareEnv_tunneling_empty_env (environ : List String) (config : CommandConfig) :
    (config.EnvTunneling = true → config.Env = [] → PrepareEnv environ config = some environ) ∧
    (PrepareEnv environ config = none ↔ config.Env = [] ∧ config.EnvTunneling = false) := by
  constructor
  · intro ht he
    simp [PrepareEnv, ht, he]
  · constructor
    · intro h
      by_cases hc : config.Env = [] ∧ config.EnvTunneling = false
      · exact hc
      · exfalso
        by_cases ht : config.EnvTunneling = true ∧ config.Env ≠ []
        · cases hfi : List.findIdx? (fun e => "WSLENV=".data.isPrefixOf e.data)
              (environ ++ config.Env.map (fun kv => kv.1 ++ "=" ++ kv.2)) with
          | none => simp [PrepareEnv, hc, ht, hfi] at h
          | some i => simp [PrepareEnv, hc, ht, hfi] at h
        · simp [PrepareEnv, hc, ht] at h
    · intro h
      simp [PrepareEnv, h.1, h.2]

/-- **C10** (witness): the theorem's first part at a concrete inherited
environment with tunneling on and no overlay. -/
theorem PrepareEnv_tunneling_empty_env_witness :
    PrepareEnv ["A=1"] { EnvTunneling := true } = some ["A=1"] :=
  (PrepareEnv_tunneling_empty_env ["A=1"] { EnvTunneling := true }).1 rfl rfl

/-! ## Claims C2 and C7 -/

/-- The conservation invariant of the pool: the submitted jobs are exactly the
jobs accounted for by emitted results, the queue, and the in-flight bag; and
the results channel is closed only with the jobs channel closed and nothing
outstanding. -/
def PoolInv {α : Type} (s : PoolState α) : Prop :=
  ((s.submitted : Multiset α) =
      (s.emitted.map PoolResult.config : List α) + (s.queue : Multiset α) + (s.inFlight : Multiset α)) ∧
  (s.resultsClosed = true → s.jobsClosed = true ∧ s.queue = [] ∧ s.inFlight = [])

theorem poolReach_inv {α : Type} {s : PoolState α} (h : PoolReach α s) : PoolInv s := by
  induction h with
  | init => exact ⟨rfl, by intro h; simp [initPool] at h⟩
  | @step s1 s2 hr hs ih =>
    obtain ⟨ih1, ih2⟩ := ih
    cases hs with
    | submit j h =>
      constructor
      · show ((s1.submitted ++ [j] : List α) : Multiset α) = _
        rw [← Multiset.coe_add, ih1]
        show _ = _ + ((s1.queue ++ [j] : List α) : Multiset α) + _
        rw [← Multiset.coe_add]
        abel
      · intro hrc
        exact absurd (ih2 hrc).1 (by rw [h]; simp)
    | shutdown =>
      refine ⟨ih1, ?_⟩
      intro hrc
      exact ⟨rfl, (ih2 hrc).2.1, (ih2 hrc).2.2⟩
    | cancel =>
      refine ⟨ih1, ?_⟩
      intro hrc
      exact ih2 hrc
    | pickCancelled j rest hq hc =>
      constructor
      · show (s1.submitted : Multiset α) =
          ((s1.emitted ++ [(⟨j, some PoolErr.cancelled⟩ : PoolResult α)]).map
              PoolResult.config : List α) + (rest : Multiset α) + _
        rw [List.map_append, ← Multiset.coe_add, ih1, hq]
        show _ + ((j :: rest : List α) : Multiset α) + _ = _
        rw [← Multiset.cons_coe, ← Multiset.singleton_add]
        simp only [List.map_cons, List.map_nil, Multiset.coe_singleton]
        abel
      · intro hrc
        rw [hq] at ih2
        exact absurd (ih2 hrc).2.1 (by simp)
    | pickRun j rest hq hc =>
      constructor
      · show (s1.submitted : Multiset α) = _ + (rest : Multiset α)
            + ((s1.inFlight ++ [j] : List α) : Multiset α)
        rw [← Multiset.coe_add, ih1, hq]
        show _ + ((j :: rest : List α) : Multiset α) + _ = _
        rw [← Multiset.cons_coe, ← Multiset.singleton_add]
        simp only [Multiset.coe_singleton]
        abel
      · intro hrc
        rw [hq] at ih2
        exact absurd (ih2 hrc).2.1 (by simp)
    | finishRun j l₁ l₂ e hf =>
      constructor
      · show (s1.submitted : Multiset α) =
          ((s1.emitted ++ [(⟨j, e⟩ : PoolResult α)]).map PoolResult.config : List α) + _
            + ((l₁ ++ l₂ : List α) : Multiset α)
        rw [List.map_append, ← Multiset.coe_add, ih1, hf, ← Multiset.coe_add]
        show _ + _ + ((l₁ ++ j :: l₂ : List α) : Multiset α) = _
        rw [← Multiset.coe_add, ← Multiset.cons_coe, ← Multiset.singleton_add]
        simp only [List.map_cons, List.map_nil, Multiset.coe_singleton, ← Multiset.coe_add]
        abel
      · intro hrc
        rw [hf] at ih2
        exact absurd (ih2 hrc).2.2 (by simp)
    | closeResults h1 h2 h3 =>
      exact ⟨ih1, fun _ => ⟨h1, h2, h3⟩⟩

/-- **C2**: in every reachable pool state whose result stream has been closed,
the configs of the emitted results are a permutation of the submitted jobs —
each submitted job yielded exactly one result, never zero and never two — and
the stream closed only after `Shutdown` (`jobsClosed`) with the queue drained
and no job in flight. -/
theorem workerpool_one_result_per_job {α : Type} (s : PoolState α) (hr : PoolReach α s)
    (hc : s.resultsClosed = true) :
    (s.emitted.map PoolResult.config).Perm s.submitted ∧ s.jobsClosed = true ∧
      s.queue = [] ∧ s.inFlight = [] := by
  obtain ⟨h1, h2⟩ := poolReach_inv hr
  obtain ⟨hj, hq, hf⟩ := h2 hc
  refine ⟨?_, hj, hq, hf⟩
  rw [hq, hf] at h1
  simp at h1
  exact h1.symm

/-- **C7**: once the pool-wide `Cancel` has fired, no step invokes the
executor (`execCount` is frozen), already-emitted results remain delivered
(the emitted list only grows), and any job popped from the queue is completed
with exactly one cancellation-error result. -/
theorem workerpool_cancel_fail_fast {α : Type} (s s' : PoolState α)
    (hstep : PoolStep α s s') (hc : s.cancelled = true) :
    s'.execCount = s.execCount ∧
    (∃ t, s'.emitted = s.emitted ++ t) ∧
    (∀ j rest, s.queue = j :: rest → s'.queue = rest →
      s'.emitted = s.emitted ++ [⟨j, some PoolErr.cancelled⟩]) := by
  cases hstep with
  | submit j h =>
    refine ⟨rfl, ⟨[], by simp⟩, ?_⟩
    intro j' rest hq hq'
    exfalso
    rw [hq] at hq'
    have := congrArg List.length hq'
    simp only [List.length_cons, List.length_append] at this
    omega
  | shutdown =>
    refine ⟨rfl, ⟨[], by simp⟩, ?_⟩
    intro j' rest hq hq'
    exfalso
    rw [hq] at hq'
    have := congrArg List.length hq'
    simp only [List.length_cons, List.length_append] at this
    omega
  | cancel =>
    refine ⟨rfl, ⟨[], by simp⟩, ?_⟩
    intro j' rest hq hq'
    exfalso
    rw [hq] at hq'
    have := congrArg List.length hq'
    simp only [List.length_cons, List.length_append] at this
    omega
  | pickCancelled j rest hq0 hc0 =>
    refine ⟨rfl, ⟨[⟨j, some PoolErr.cancelled⟩], rfl⟩, ?_⟩
    intro j' rest' hq hq'
    have hinj := hq0.symm.trans hq
    rw [(List.cons.injEq _ _ _ _ ▸ hinj : j = j' ∧ rest = rest').1]
  | pickRun j rest hq0 hc0 =>
    rw [hc] at hc0
    exact absurd hc0 (by simp)
  | finishRun j l₁ l₂ e hf =>
    refine ⟨rfl, ⟨[⟨j, e⟩], rfl⟩, ?_⟩
    intro j' rest hq hq'
    exfalso
    rw [hq] at hq'
    have := congrArg List.length hq'
    simp only [List.length_cons, List.length_append] at this
    omega
  | closeResults h1 h2 h3 =>
    refine ⟨rfl, ⟨[], by simp⟩, ?_⟩
    intro j' rest hq hq'
    exfalso
    rw [hq] at hq'
    have := congrArg List.length hq'
    simp only [List.length_cons, List.length_append] at this
    omega

/-- End state of a concrete pool run: one job submitted, executed, emitted,
then shut down and closed. -/
def c2FinalState : PoolState Nat :=
  { queue := [], inFlight := [], emitted := [⟨0, none⟩], jobsClosed := true,
    cancelled := false, resultsClosed := true, submitted := [0], execCount := 1 }

/-- **C2** (witness): the theorem along a concrete five-step trace. -/
theorem workerpool_one_result_witness :
    (c2FinalState.emitted.map PoolResult.config).Perm c2FinalState.submitted ∧
      c2FinalState.jobsClosed = true ∧ c2FinalState.queue = [] ∧ c2FinalState.inFlight = [] :=
  workerpool_one_result_per_job c2FinalState
    (PoolReach.step (PoolReach.step (PoolReach.step (PoolReach.step (PoolReach.step
      PoolReach.init
      (PoolStep.submit _ 0 rfl))
      (PoolStep.shutdown _))
      (PoolStep.pickRun _ 0 [] rfl rfl))
      (PoolStep.finishRun _ 0 [] [] none rfl))
      (PoolStep.closeResults _ rfl rfl rfl)) rfl

/-- A cancelled pool state with one queued job. -/
def c7State : PoolState Nat := { queue := [5], cancelled := true }

/-- The state after the worker picks the queued job of `c7State`. -/
def c7State' : PoolState Nat :=
  { queue := [], cancelled := true, emitted := [⟨5, some PoolErr.cancelled⟩] }

/-- **C7** (witness): the theorem at a concrete cancelled-pick step. -/
theorem workerpool_cancel_witness :
    c7State'.execCount = c7State.execCount ∧
    (∃ t, c7State'.emitted = c7State.emitted ++ t) ∧
    (∀ j rest, c7State.queue = j :: rest → c7State'.queue = rest →
      c7State'.emitted = c7State.emitted ++ [⟨j, some PoolErr.cancelled⟩]) :=
  workerpool_cancel_fail_fast c7State c7State'
    (PoolStep.pickCancelled c7State 5 [] rfl rfl) rfl

/-! ## Claim C4 — path translation round trip -/

/-- The character swap used for `strings.ReplaceAll(·, "/", "\\")`. -/
theorem map_slash_toBack_toSlash (l : List Char) (h : '\\' ∉ l) :
    (l.map (fun c => if c = '/' then '\\' else c)).map
      (fun c => if c = '\\' then '/' else c) = l := by
  induction l with
  | nil => rfl
  | cons c t ih =>
    simp only [List.mem_cons, not_or] at h
    simp only [List.map_cons, ih h.2, List.cons.injEq, and_true]
    by_cases hc : c = '/'
    · simp [hc]
    · have hcb : ¬c = '\\' := fun h' => h.1 h'.symm
      simp [hc, hcb]

theorem splitOnChar_ne_nil (sep : Char) (l : List Char) : splitOnChar sep l ≠ [] := by
  cases l with
  | nil => simp [splitOnChar]
  | cons c cs =>
    unfold splitOnChar
    cases splitOnChar sep cs with
    | nil => simp
    | cons s rest =>
      by_cases hc : c = sep <;> simp [hc]

theorem splitOnChar_cons (sep c : Char) (cs s0 : List Char) (rest : List (List Char))
    (hsp : splitOnChar sep cs = s0 :: rest) :
    splitOnChar sep (c :: cs) = if c = sep then [] :: s0 :: rest else (c :: s0) :: rest := by
  unfold splitOnChar
  rw [hsp]

theorem not_mem_of_mem_splitOnChar (sep : Char) (l : List Char) :
    ∀ s ∈ splitOnChar sep l, sep ∉ s := by
  induction l with
  | nil => intro s hs; simp [splitOnChar] at hs; simp [hs]
  | cons c cs ih =>
    intro s hs
    cases hsp : splitOnChar sep cs with
    | nil => exact absurd hsp (splitOnChar_ne_nil sep cs)
    | cons s0 rest =>
      rw [splitOnChar_cons sep c cs s0 rest hsp] at hs
      by_cases hc : c = sep
      · rw [if_pos hc] at hs
        rcases List.mem_cons.mp hs with h | h
        · simp [h]
        · exact ih s (hsp ▸ h)
      · rw [if_neg hc] at hs
        rcases List.mem_cons.mp hs with h | h
        · subst h
          intro hmem
          rcases List.mem_cons.mp hmem with h' | h'
          · exact hc h'.symm
          · exact ih s0 (hsp ▸ List.mem_cons_self s0 rest) h'
        · exact ih s (hsp ▸ List.mem_cons.mpr (Or.inr h))

theorem mem_of_mem_splitOnChar (sep : Char) (l : List Char) :
    ∀ s ∈ splitOnChar sep l, ∀ c ∈ s, c ∈ l := by
  induction l with
  | nil => intro s hs; simp [splitOnChar] at hs; simp [hs]
  | cons a cs ih =>
    intro s hs c hc
    cases hsp : splitOnChar sep cs with
    | nil => exact absurd hsp (splitOnChar_ne_nil sep cs)
    | cons s0 rest =>
      rw [splitOnChar_cons sep a cs s0 rest hsp] at hs
      by_cases ha : a = sep
      · rw [if_pos ha] at hs
        rcases List.mem_cons.mp hs with h | h
        · subst h; simp at hc
        · exact List.mem_cons.mpr (Or.inr (ih s (hsp ▸ h) c hc))
      · rw [if_neg ha] at hs
        rcases List.mem_cons.mp hs with h | h
        · subst h
          rcases List.mem_cons.mp hc with h' | h'
          · exact h' ▸ List.mem_cons_self a cs
          · exact List.mem_cons.mpr
              (Or.inr (ih s0 (hsp ▸ List.mem_cons_self s0 rest) c h'))
        · exact List.mem_cons.mpr (Or.inr (ih s (hsp ▸ List.mem_cons.mpr (Or.inr h)) c hc))

theorem splitOnChar_sep_free (sep : Char) (l : List Char) (h : sep ∉ l) :
    splitOnChar sep l = [l] := by
  induction l with
  | nil => rfl
  | cons c cs ih =>
    simp only [List.mem_cons, not_or] at h
    have hcs : ¬c = sep := fun hc => h.1 hc.symm
    rw [splitOnChar_cons sep c cs cs [] (ih h.2)]
    simp [hcs]

theorem splitOnChar_cons_self (sep : Char) (x : List Char) :
    splitOnChar sep (sep :: x) = [] :: splitOnChar sep x := by
  cases hsp : splitOnChar sep x with
  | nil => exact absurd hsp (splitOnChar_ne_nil sep x)
  | cons s rest =>
    rw [splitOnChar_cons sep sep x s rest hsp]
    simp

theorem splitOnChar_append (sep : Char) (s x : List Char) (h : sep ∉ s) :
    splitOnChar sep (s ++ sep :: x) = s :: splitOnChar sep x := by
  induction s with
  | nil => simpa using splitOnChar_cons_self sep x
  | cons c t ih =>
    simp only [List.mem_cons, not_or] at h
    have ht := ih h.2
    show splitOnChar sep (c :: (t ++ sep :: x)) = _
    cases hsp : splitOnChar sep x with
    | nil => exact absurd hsp (splitOnChar_ne_nil sep x)
    | cons s0 rest =>
      rw [hsp] at ht
      have hcs : ¬c = sep := fun hc => h.1 hc.symm
      rw [splitOnChar_cons sep c (t ++ sep :: x) t (s0 :: rest) ht]
      simp [hcs, hsp]

theorem splitOnChar_joinSep (sep : Char) (segs : List (List Char)) (hne : segs ≠ [])
    (h : ∀ s ∈ segs, sep ∉ s) : splitOnChar sep (joinSep sep segs) = segs := by
  induction segs with
  | nil => exact absurd rfl hne
  | cons s t ih =>
    cases t with
    | nil => exact splitOnChar_sep_free sep s (h s (List.mem_cons_self s []))
    | cons s2 t2 =>
      show splitOnChar sep (s ++ sep :: joinSep sep (s2 :: t2)) = _
      rw [splitOnChar_append sep s _ (h s (List.mem_cons_self s _))]
      rw [ih (by simp) (fun x hx => h x (List.mem_cons.mpr (Or.inr hx)))]

/-- Segments of a cleaned rooted path: nonempty, slash-free, not a dot
segment. -/
def cleanSeg (s : List Char) : Prop :=
  s ≠ [] ∧ '/' ∉ s ∧ s ≠ ['.'] ∧ s ≠ ['.', '.']

theorem mem_of_mem_dropLast {α : Type} {l : List α} {a : α} (h : a ∈ l.dropLast) : a ∈ l :=
  List.take_subset _ _ (List.dropLast_eq_take l ▸ h)

theorem cleanStep_true_ok (acc : List (List Char)) (s0 : List Char)
    (hacc : ∀ s ∈ acc, cleanSeg s) (h0 : '/' ∉ s0) :
    ∀ s ∈ cleanStep true acc s0, cleanSeg s := by
  intro s hs
  unfold cleanStep at hs
  by_cases h1 : s0 = [] ∨ s0 = ['.']
  · rw [if_pos h1] at hs
    exact hacc s hs
  · rw [if_neg h1] at hs
    by_cases h2 : s0 = ['.', '.']
    · rw [if_pos h2] at hs
      exact hacc s (mem_of_mem_dropLast hs)
    · rw [if_neg h2] at hs
      rcases List.mem_append.mp hs with h | h
      · exact hacc s h
      · have : s = s0 := by simpa using h
        subst this
        exact ⟨fun h' => h1 (Or.inl h'), h0, fun h' => h1 (Or.inr h'), h2⟩

theorem cleanSegs_true_ok (segs : List (List Char)) (acc : List (List Char))
    (hacc : ∀ s ∈ acc, cleanSeg s) (hsegs : ∀ s ∈ segs, '/' ∉ s) :
    ∀ s ∈ segs.foldl (cleanStep true) acc, cleanSeg s := by
  induction segs generalizing acc with
  | nil => exact hacc
  | cons s0 t ih =>
    exact ih (cleanStep true acc s0)
      (cleanStep_true_ok acc s0 hacc (hsegs s0 (List.mem_cons_self s0 t)))
      (fun s hs => hsegs s (List.mem_cons.mpr (Or.inr hs)))

theorem cleanStep_true_chars (P : Char → Prop) (acc : List (List Char)) (s0 : List Char)
    (hacc : ∀ s ∈ acc, ∀ c ∈ s, P c) (h0 : ∀ c ∈ s0, P c) :
    ∀ s ∈ cleanStep true acc s0, ∀ c ∈ s, P c := by
  intro s hs
  unfold cleanStep at hs
  by_cases h1 : s0 = [] ∨ s0 = ['.']
  · rw [if_pos h1] at hs
    exact hacc s hs
  · rw [if_neg h1] at hs
    by_cases h2 : s0 = ['.', '.']
    · rw [if_pos h2] at hs
      exact hacc s (mem_of_mem_dropLast hs)
    · rw [if_neg h2] at hs
      rcases List.mem_append.mp hs with h | h
      · exact hacc s h
      · have : s = s0 := by simpa using h
        subst this
        exact h0

theorem cleanSegs_true_chars (P : Char → Prop) (segs : List (List Char))
    (acc : List (List Char)) (hacc : ∀ s ∈ acc, ∀ c ∈ s, P c)
    (hsegs : ∀ s ∈ segs, ∀ c ∈ s, P c) :
    ∀ s ∈ segs.foldl (cleanStep true) acc, ∀ c ∈ s, P c := by
  induction segs generalizing acc with
  | nil => exact hacc
  | cons s0 t ih =>
    exact ih (cleanStep true acc s0)
      (cleanStep_true_chars P acc s0 hacc (hsegs s0 (List.mem_cons_self s0 t)))
      (fun s hs => hsegs s (List.mem_cons.mpr (Or.inr hs)))

theorem cleanSegs_true_of_ok (segs : List (List Char)) (h : ∀ s ∈ segs, cleanSeg s) :
    ∀ acc, segs.foldl (cleanStep true) acc = acc ++ segs := by
  induction segs with
  | nil => intro acc; simp
  | cons s0 t ih =>
    intro acc
    obtain ⟨hne, _, hdot, hdd⟩ := h s0 (List.mem_cons_self s0 t)
    have hstep : cleanStep true acc s0 = acc ++ [s0] := by
      unfold cleanStep
      rw [if_neg (by simp [hne, hdot]), if_neg hdd]
    show (s0 :: t).foldl (cleanStep true) acc = _
    rw [List.foldl_cons, hstep, ih (fun s hs => h s (List.mem_cons.mpr (Or.inr hs)))]
    simp

theorem goClean_rooted_spec (p : List Char) (hroot : p.head? = some '/') :
    ∃ segs, (∀ s ∈ segs, cleanSeg s) ∧ (∀ s ∈ segs, ∀ c ∈ s, c ∈ p) ∧
      goClean p = '/' :: joinSep '/' segs := by
  have hne : p ≠ [] := by
    intro h
    rw [h] at hroot
    simp at hroot
  refine ⟨cleanSegs true (splitOnChar '/' p), ?_, ?_, ?_⟩
  · exact cleanSegs_true_ok _ [] (by simp) (not_mem_of_mem_splitOnChar '/' p)
  · exact cleanSegs_true_chars _ _ [] (by simp) (mem_of_mem_splitOnChar '/' p)
  · simp [goClean, hne, hroot]

theorem mem_joinSep (sep : Char) (segs : List (List Char)) (c : Char)
    (h : c ∈ joinSep sep segs) : c = sep ∨ ∃ s ∈ segs, c ∈ s := by
  induction segs with
  | nil => simp [joinSep] at h
  | cons s t ih =>
    cases t with
    | nil =>
      right
      exact ⟨s, List.mem_cons_self s [], h⟩
    | cons s2 t2 =>
      rcases List.mem_append.mp h with h' | h'
      · right
        exact ⟨s, List.mem_cons_self s _, h'⟩
      · rcases List.mem_cons.mp h' with h'' | h''
        · exact Or.inl h''
        · rcases ih h'' with h3 | ⟨s', hs', hc⟩
          · exact Or.inl h3
          · exact Or.inr ⟨s', List.mem_cons.mpr (Or.inr hs'), hc⟩

theorem joinSep_ne_nil (sep : Char) (s : List Char) (t : List (List Char)) (h : s ≠ []) :
    joinSep sep (s :: t) ≠ [] := by
  cases t with
  | nil => exact h
  | cons s2 t2 =>
    show s ++ sep :: joinSep sep (s2 :: t2) ≠ []
    simp

theorem joinSep_getLast (sep : Char) (segs : List (List Char)) (hne : segs ≠ [])
    (h : ∀ s ∈ segs, s ≠ []) :
    ∃ s, s ∈ segs ∧ (joinSep sep segs).getLast? = s.getLast? := by
  induction segs with
  | nil => exact absurd rfl hne
  | cons s t ih =>
    cases t with
    | nil => exact ⟨s, List.mem_cons_self s [], rfl⟩
    | cons s2 t2 =>
      obtain ⟨s', hs', hlast⟩ := ih (by simp) (fun x hx => h x (List.mem_cons.mpr (Or.inr hx)))
      refine ⟨s', List.mem_cons.mpr (Or.inr hs'), ?_⟩
      show (s ++ sep :: joinSep sep (s2 :: t2)).getLast? = _
      rw [List.getLast?_append]
      have hjne : joinSep sep (s2 :: t2) ≠ [] :=
        joinSep_ne_nil sep s2 t2 (h s2 (List.mem_cons.mpr (Or.inr (List.mem_cons_self s2 t2))))
      have : (sep :: joinSep sep (s2 :: t2)).getLast? = (joinSep sep (s2 :: t2)).getLast? := by
        show ([sep] ++ joinSep sep (s2 :: t2)).getLast? = _
        rw [List.getLast?_append]
        cases hj : (joinSep sep (s2 :: t2)).getLast? with
        | none => exact absurd (List.getLast?_eq_none_iff.mp hj) hjne
        | some a => rfl
      rw [this, hlast]
      cases hj : s'.getLast? with
      | none => exact absurd (List.getLast?_eq_none_iff.mp hj) (h s' (List.mem_cons.mpr (Or.inr hs')))
      | some a => rfl

theorem goClean_rooted_head (p : List Char) (hroot : p.head? = some '/') :
    (goClean p).head? = some '/' := by
  obtain ⟨segs, _, _, hq⟩ := goClean_rooted_spec p hroot
  rw [hq]
  rfl

theorem goClean_rooted_no_backslash (p : List Char) (hroot : p.head? = some '/')
    (hnb : '\\' ∉ p) : '\\' ∉ goClean p := by
  obtain ⟨segs, _, hchars, hq⟩ := goClean_rooted_spec p hroot
  rw [hq]
  intro hmem
  rcases List.mem_cons.mp hmem with h | h
  · simp at h
  · rcases mem_joinSep '/' segs '\\' h with h' | ⟨s, hs, hc⟩
    · simp at h'
    · exact hnb (hchars s hs '\\' hc)

theorem goClean_rooted_getLast (p : List Char) (hroot : p.head? = some '/') :
    goClean p = ['/'] ∨ (goClean p).getLast? ≠ some '/' := by
  obtain ⟨segs, hok, _, hq⟩ := goClean_rooted_spec p hroot
  cases hsegs : segs with
  | nil =>
    left
    rw [hq, hsegs]
    rfl
  | cons s t =>
    right
    rw [hq, hsegs]
    have hne' : ∀ x ∈ s :: t, x ≠ [] := fun x hx => (hok x (hsegs ▸ hx)).1
    obtain ⟨s', hs', hlast⟩ := joinSep_getLast '/' (s :: t) (by simp) hne'
    have hjne : joinSep '/' (s :: t) ≠ [] := joinSep_ne_nil '/' s t (hne' s (List.mem_cons_self s t))
    have hcons : ('/' :: joinSep '/' (s :: t)).getLast? = (joinSep '/' (s :: t)).getLast? := by
      show (['/'] ++ joinSep '/' (s :: t)).getLast? = _
      rw [List.getLast?_append]
      cases hj : (joinSep '/' (s :: t)).getLast? with
      | none => exact absurd (List.getLast?_eq_none_iff.mp hj) hjne
      | some a => rfl
    rw [hcons, hlast]
    intro hcontra
    have : '/' ∈ s' := List.mem_of_mem_getLast? hcontra
    exact (hok s' (hsegs ▸ hs')).2.1 this

theorem goClean_rooted_idem (p : List Char) (hroot : p.head? = some '/') :
    goClean (goClean p) = goClean p := by
  obtain ⟨segs, hok, _, hq⟩ := goClean_rooted_spec p hroot
  cases hsegs : segs with
  | nil =>
    rw [hq, hsegs]
    decide
  | cons s t =>
    rw [hq, hsegs]
    have hok' : ∀ x ∈ s :: t, cleanSeg x := fun x hx => hok x (hsegs ▸ hx)
    have hsf : ∀ x ∈ s :: t, '/' ∉ x := fun x hx => (hok' x hx).2.1
    have hsplit : splitOnChar '/' ('/' :: joinSep '/' (s :: t))
        = [] :: (s :: t) := by
      rw [splitOnChar_cons_self, splitOnChar_joinSep '/' (s :: t) (by simp) hsf]
    show goClean ('/' :: joinSep '/' (s :: t)) = _
    unfold goClean
    rw [if_neg (by simp)]
    have hd : decide (('/' :: joinSep '/' (s :: t)).head? = some '/') = true := by simp
    rw [hd, if_pos rfl, hsplit]
    show '/' :: joinSep '/' (List.foldl (cleanStep true) (cleanStep true [] []) (s :: t)) = _
    have : cleanStep true [] [] = [] := by
      unfold cleanStep
      rw [if_pos (Or.inl rfl)]
    rw [this, cleanSegs_true_of_ok (s :: t) hok' []]
    rfl

/-- A well-formed DrvFs mount entry: `/mnt/<lowercase letter>` mapped to the
corresponding uppercase drive letter (what `parseMountTable` produces from a
standard WSL mount table). -/
def wfMount (m : mountEntry) : Prop :=
  ∃ lo up, m.MountPoint = "/mnt/".toList ++ [lo] ∧ m.DriveLetter = [up] ∧
    up.isAlpha = true ∧ up.toLower = lo

theorem isAlpha_ne_backslash (c : Char) (h : c.isAlpha = true) : c ≠ '\\' := by
  intro hc
  subst hc
  exact absurd h (by decide)

theorem isPrefixOf_self_append (l t : List Char) : (l.isPrefixOf (l ++ t)) = true := by
  induction l with
  | nil => cases t <;> rfl
  | cons c cs ih => simp [List.isPrefixOf, ih]

theorem not_isPrefixOf_of_head_ne (a b : Char) (as bs : List Char) (h : a ≠ b) :
    ((a :: as).isPrefixOf (b :: bs)) = false := by
  simp [List.isPrefixOf, h]

theorem findIdx?_backslash_append (distro t : List Char) (hd : '\\' ∉ distro) :
    (distro ++ '\\' :: t).findIdx? (fun c => c = '\\') = some distro.length := by
  rw [List.findIdx?_append]
  have h1 : distro.findIdx? (fun c => c = '\\') = none :=
    List.findIdx?_eq_none_iff.mpr (fun x hx => by
      simp only [decide_eq_false_iff_not]
      exact fun h => hd (h ▸ hx))
  have h2 : (('\\' :: t).findIdx? fun c => c = '\\') = some 0 := by
    rw [List.findIdx?_cons]
    simp
  rw [h1, h2]
  simp [Option.or]

theorem toLinuxPathInternal_drive_root (up lo : Char) (halpha : up.isAlpha = true)
    (hlow : up.toLower = lo) :
    toLinuxPathInternal [up, ':', '\\'] = .ok ("/mnt/".toList ++ [lo]) := by
  have hne : up ≠ '\\' := isAlpha_ne_backslash up halpha
  have hunc1 : uncLocalhostPre.isPrefixOf [up, ':', '\\'] = false :=
    not_isPrefixOf_of_head_ne _ _ _ _ (fun h => hne h.symm)
  have hunc2 : uncDollarPre.isPrefixOf [up, ':', '\\'] = false :=
    not_isPrefixOf_of_head_ne _ _ _ _ (fun h => hne h.symm)
  unfold toLinuxPathInternal
  rw [if_neg (by simp only [hunc1, hunc2]; simp)]
  rw [if_pos ⟨(by decide : (2 : Nat) ≤ 3), rfl, by simpa using halpha⟩]
  simp [List.isPrefixOf, hlow]

theorem toLinuxPathInternal_drive (up lo : Char) (rest : List Char)
    (halpha : up.isAlpha = true) (hlow : up.toLower = lo) (hrne : rest ≠ [])
    (hnb : '\\' ∉ rest)
    (hclean : goClean ("/mnt/".toList ++ lo :: '/' :: rest)
      = "/mnt/".toList ++ lo :: '/' :: rest) :
    toLinuxPathInternal ([up, ':', '\\'] ++ rest.map (fun c => if c = '/' then '\\' else c))
      = .ok ("/mnt/".toList ++ lo :: '/' :: rest) := by
  have hne : up ≠ '\\' := isAlpha_ne_backslash up halpha
  have hunc1 : uncLocalhostPre.isPrefixOf
      ([up, ':', '\\'] ++ rest.map (fun c => if c = '/' then '\\' else c)) = false :=
    not_isPrefixOf_of_head_ne _ _ _ _ (fun h => hne h.symm)
  have hunc2 : uncDollarPre.isPrefixOf
      ([up, ':', '\\'] ++ rest.map (fun c => if c = '/' then '\\' else c)) = false :=
    not_isPrefixOf_of_head_ne _ _ _ _ (fun h => hne h.symm)
  unfold toLinuxPathInternal
  rw [if_neg (by simp only [hunc1, hunc2]; simp)]
  rw [if_pos ⟨(by simp only [List.length_append, List.length_cons, List.length_nil]; omega),
    rfl, by simpa using halpha⟩]
  have hpre : (['\\'].isPrefixOf
      ('\\' :: rest.map (fun c => if c = '/' then '\\' else c))) = true := by
    simp [List.isPrefixOf]
  dsimp only
  rw [show List.drop 2 ([up, ':', '\\'] ++ rest.map (fun c => if c = '/' then '\\' else c))
      = '\\' :: rest.map (fun c => if c = '/' then '\\' else c) from rfl]
  rw [show (([up, ':', '\\'] ++ rest.map (fun c => if c = '/' then '\\' else c)).get? 0).getD ' '
      = up from rfl]
  rw [if_pos hpre]
  have hmap := map_slash_toBack_toSlash rest hnb
  rw [show ('\\' :: rest.map (fun c => if c = '/' then '\\' else c)).drop 1
      = rest.map (fun c => if c = '/' then '\\' else c) from rfl]
  rw [hmap, if_neg hrne, hlow, hclean]

theorem toLinuxPathInternal_unc (distro q : List Char) (hd : '\\' ∉ distro)
    (hq : q.head? = some '/') (hnb : '\\' ∉ q) (hidem : goClean q = q) :
    toLinuxPathInternal (uncLocalhostPre ++ distro
      ++ q.map (fun c => if c = '/' then '\\' else c)) = .ok q := by
  obtain ⟨q', hq'⟩ := List.head?_eq_some_iff.mp hq
  subst hq'
  simp only [List.mem_cons, not_or] at hnb
  have hmapped : ('/' :: q').map (fun c => if c = '/' then '\\' else c)
      = '\\' :: q'.map (fun c => if c = '/' then '\\' else c) := by
    simp
  have hassoc : uncLocalhostPre ++ distro ++ ('/' :: q').map (fun c => if c = '/' then '\\' else c)
      = uncLocalhostPre ++ (distro ++ ('\\' :: q'.map (fun c => if c = '/' then '\\' else c))) := by
    rw [hmapped, List.append_assoc]
  have hpre : uncLocalhostPre.isPrefixOf (uncLocalhostPre ++ distro
      ++ ('/' :: q').map (fun c => if c = '/' then '\\' else c)) = true := by
    rw [hassoc]
    exact isPrefixOf_self_append _ _
  unfold toLinuxPathInternal
  rw [if_pos (Or.inl hpre)]
  dsimp only
  rw [if_pos hpre, hassoc]
  rw [show List.drop uncLocalhostPre.length
      (uncLocalhostPre ++ (distro ++ ('\\' :: q'.map (fun c => if c = '/' then '\\' else c))))
      = distro ++ ('\\' :: q'.map (fun c => if c = '/' then '\\' else c)) from
    List.drop_left uncLocalhostPre _]
  rw [findIdx?_backslash_append distro _ hd]
  dsimp only
  rw [show List.drop distro.length
      (distro ++ ('\\' :: q'.map (fun c => if c = '/' then '\\' else c)))
      = '\\' :: q'.map (fun c => if c = '/' then '\\' else c) from List.drop_left distro _]
  have hmap := map_slash_toBack_toSlash q' hnb.2
  simp only [List.map_cons, if_pos rfl, hmap]
  simp [hidem]

theorem mountMatch_wf (mounts : List mountEntry) (hwf : ∀ m ∈ mounts, wfMount m)
    (q w : List Char) (h : mountMatch q mounts = some w) :
    ∃ lo up, up.isAlpha = true ∧ up.toLower = lo ∧
      ((q = "/mnt/".toList ++ [lo] ∧ w = [up, ':', '\\']) ∨
       (∃ rest, q = "/mnt/".toList ++ lo :: '/' :: rest ∧
         w = [up, ':', '\\'] ++ rest.map (fun c => if c = '/' then '\\' else c))) := by
  induction mounts with
  | nil => simp [mountMatch] at h
  | cons m ms ih =>
    obtain ⟨lo, up, hmp, hdl, halpha, hlow⟩ := hwf m (List.mem_cons_self m ms)
    unfold mountMatch at h
    by_cases h1 : q = m.MountPoint
    · rw [if_pos h1] at h
      refine ⟨lo, up, halpha, hlow, Or.inl ⟨h1.trans hmp, ?_⟩⟩
      have hw := Option.some.inj h
      rw [← hw, hdl]
      rfl
    · rw [if_neg h1] at h
      by_cases h2 : (m.MountPoint ++ ['/']).isPrefixOf q = true
      · rw [if_pos h2] at h
        obtain ⟨t, ht⟩ := List.isPrefixOf_iff_prefix.mp h2
        have hdrop : q.drop (m.MountPoint.length + 1) = t := by
          rw [← ht, show m.MountPoint.length + 1 = (m.MountPoint ++ ['/']).length by simp,
            List.drop_left]
        refine ⟨lo, up, halpha, hlow, Or.inr ⟨t, ?_, ?_⟩⟩
        · rw [← ht, hmp]
          simp
        · have hw := Option.some.inj h
          rw [← hw, hdl, hdrop]
          rfl
      · rw [if_neg h2] at h
        exact ih (fun x hx => hwf x (List.mem_cons.mpr (Or.inr hx))) h

theorem ToLinuxPath_empty_cache_fst (w : List Char) (hw : w ≠ []) (x : List Char)
    (h : toLinuxPathInternal w = .ok x) : (ToLinuxPath [] w).1 = .ok x := by
  unfold ToLinuxPath
  rw [if_neg hw]
  rw [show cacheLoad [] (cacheKey ['u'] w) = none from rfl]
  dsimp only
  rw [h]

/-- **C4** (amended): for every absolute native path (leading `'/'`) that
contains no backslash character, under a well-formed mount table and a
backslash-free distro name, translating with `ToWindowsPath` (empty cache) and
back with `ToLinuxPath` yields exactly the path cleaned of redundant
`.`/`..` segments. -/
theorem path_round_trip (mounts : List mountEntry) (distro p : List Char)
    (hwf : ∀ m ∈ mounts, wfMount m) (hd : '\\' ∉ distro)
    (hroot : p.head? = some '/') (hnb : '\\' ∉ p) :
    ∃ w cache, ToWindowsPath mounts distro [] p = (Except.ok w, cache) ∧
      (ToLinuxPath [] w).1 = Except.ok (goClean p) := by
  have hpne : p ≠ [] := by
    intro h
    rw [h] at hroot
    simp at hroot
  have hW : ToWindowsPath mounts distro [] p
      = (Except.ok (toWindowsPathInternal mounts distro (goClean p)),
         [(cacheKey ['w'] p, toWindowsPathInternal mounts distro (goClean p))]) := by
    unfold ToWindowsPath
    rw [if_neg hpne]
    rfl
  have hq_root : (goClean p).head? = some '/' := goClean_rooted_head p hroot
  have hq_nb : '\\' ∉ goClean p := goClean_rooted_no_backslash p hroot hnb
  have hq_idem : goClean (goClean p) = goClean p := goClean_rooted_idem p hroot
  have hq_last := goClean_rooted_getLast p hroot
  refine ⟨toWindowsPathInternal mounts distro (goClean p), _, hW, ?_⟩
  cases hm : mountMatch (goClean p) mounts with
  | none =>
    have hwin : toWindowsPathInternal mounts distro (goClean p)
        = uncLocalhostPre ++ distro
          ++ (goClean p).map (fun c => if c = '/' then '\\' else c) := by
      unfold toWindowsPathInternal
      rw [hm]
      rfl
    rw [hwin]
    exact ToLinuxPath_empty_cache_fst _ (by simp [uncLocalhostPre]) _
      (toLinuxPathInternal_unc distro (goClean p) hd hq_root hq_nb hq_idem)
  | some w' =>
    have hwin : toWindowsPathInternal mounts distro (goClean p) = w' := by
      unfold toWindowsPathInternal
      rw [hm]
    rw [hwin]
    obtain ⟨lo, up, halpha, hlow, hcase⟩ := mountMatch_wf mounts hwf (goClean p) w' hm
    rcases hcase with ⟨hqe, hwe⟩ | ⟨rest, hqe, hwe⟩
    · subst hwe
      rw [hqe]
      exact ToLinuxPath_empty_cache_fst _ (by simp) _
        (toLinuxPathInternal_drive_root up lo halpha hlow)
    · have hrne : rest ≠ [] := by
        intro hre
        subst hre
        rcases hq_last with h' | h'
        · rw [hqe] at h'
          have := congrArg List.length h'
          simp at this
        · apply h'
          rw [hqe]
          rfl
      have hrnb : '\\' ∉ rest := by
        intro hmem
        apply hq_nb
        rw [hqe]
        simp [hmem]
      have hclean : goClean ("/mnt/".toList ++ lo :: '/' :: rest)
          = "/mnt/".toList ++ lo :: '/' :: rest := by
        rw [← hqe]
        exact hq_idem
      subst hwe
      rw [hqe]
      exact ToLinuxPath_empty_cache_fst _ (by simp) _
        (toLinuxPathInternal_drive up lo rest halpha hlow hrne hrnb hclean)

/-- **C4** (witness): the round trip at a concrete drive-mounted path with
`.`/`..` segments. -/
theorem path_round_trip_witness :
    ∃ w cache, ToWindowsPath [⟨"C".toList, "/mnt/c".toList⟩] "Ubuntu".toList []
        "/mnt/c/Users/./x/../test".toList = (Except.ok w, cache) ∧
      (ToLinuxPath [] w).1 = Except.ok (goClean "/mnt/c/Users/./x/../test".toList) :=
  path_round_trip [⟨"C".toList, "/mnt/c".toList⟩] "Ubuntu".toList
    "/mnt/c/Users/./x/../test".toList
    (by
      intro m hm
      simp only [List.mem_cons, List.not_mem_nil, or_false] at hm
      subst hm
      exact ⟨'c', 'C', rfl, rfl, by decide, by decide⟩)
    (by decide) (by decide) (by decide)

/-- **C4** (counterexample): the claim fails for the non-empty relative path
`"foo"` — the synthesized UNC path lacks a separator before the path, so the
reverse translation returns `"/"`, not `Clean "foo" = "foo"`. -/
theorem path_round_trip_counterexample :
    (ToWindowsPath [⟨"C".toList, "/mnt/c".toList⟩] "Ubuntu".toList [] "foo".toList).1
        = Except.ok "\\\\wsl.localhost\\Ubuntufoo".toList ∧
    (ToLinuxPath [] "\\\\wsl.localhost\\Ubuntufoo".toList).1 = Except.ok "/".toList ∧
    goClean "foo".toList = "foo".toList ∧ "/".toList ≠ "foo".toList := by
  decide
